import Mathlib

/-!
Verification of the two offline utilities of this repository:

* `src/scripts/dedupe-conversation-log.py` — a deduplicator that removes
  repeated conversation entries from a sectioned markdown log, keeping the
  first occurrence of each `(id, date)` identity, then backs up the original
  file and overwrites it with the filtered content.
* `src/test-aicf-efficiency.py` — an analyzer computing token/size metrics.

Lines and file contents are modelled as `List Char`.  The character classes
of the Python regexes are embedded as follows: `[a-f0-9]` is exact; `\d` and
`\s` cover their ASCII members (Python's Unicode-aware readings add code
points on which no statement below depends); `\w` covers `[A-Za-z0-9_]` and
the accented Latin-1 letters, where it agrees with Python — wide enough to
exhibit that the token count is not the ASCII-run count on non-ASCII input.
-/

namespace DedupeLog

/-- `[a-f0-9]` of the header regex. -/
def isHexLower (c : Char) : Bool :=
  ('a' ≤ c && c ≤ 'f') || ('0' ≤ c && c ≤ '9')

/-- `\d` of the header regex (ASCII decimal digit). -/
def isDigitChar (c : Char) : Bool :=
  '0' ≤ c && c ≤ '9'

/-- Consume an exact literal from the front of a character list, returning the
remainder on success.  Embeds the literal parts of the anchored regex
`^## Chat ([a-f0-9]+) - (\d{4}-\d{2}-\d{2}) - (.+)$`. -/
def dropLit : List Char → List Char → Option (List Char)
  | [], s => some s
  | _ :: _, [] => none
  | c :: cs, d :: ds => if c = d then dropLit cs ds else none

/-- The literal `"## Chat "` that anchors the header regex. -/
def chatLit : List Char := ['#', '#', ' ', 'C', 'h', 'a', 't', ' ']

/-- The literal `" - "` separating the regex's three capture groups. -/
def sepLit : List Char := [' ', '-', ' ']

/-- Exactly `n` ASCII digits (`\d{n}`), returning them and the remainder. -/
def digitsN : Nat → List Char → Option (List Char × List Char)
  | 0, r => some ([], r)
  | _ + 1, [] => none
  | n + 1, c :: r =>
    if isDigitChar c then
      match digitsN n r with
      | none => none
      | some (ds, rest) => some (c :: ds, rest)
    else none

/-- The date group `(\d{4}-\d{2}-\d{2})`: returns the matched characters and
the remainder of the line.  The repetition counts are fixed, so the regex
engine has no backtracking freedom inside this group. -/
def parseDate (r : List Char) : Option (List Char × List Char) :=
  match digitsN 4 r with
  | none => none
  | some (y, r1) =>
    match r1 with
    | '-' :: r2 =>
      match digitsN 2 r2 with
      | none => none
      | some (mo, r3) =>
        match r3 with
        | '-' :: r4 =>
          match digitsN 2 r4 with
          | none => none
          | some (d, r5) => some (y ++ '-' :: (mo ++ '-' :: d), r5)
        | _ => none
    | _ => none

/-- The title group `(.+)$` applied to the rest of the line: `.` matches any
character except `'\n'`, and `$` also matches just before a single trailing
`'\n'` (Python semantics without `re.MULTILINE`).  Lines produced by
`content.split('\n')` never contain `'\n'`, but the embedding keeps the full
behaviour. -/
def titleOf (r : List Char) : Option (List Char) :=
  let core := if r.getLast? = some '\n' then r.dropLast else r
  if core.isEmpty || core.contains '\n' then none else some core

/-- `re.match(r'^## Chat ([a-f0-9]+) - (\d{4}-\d{2}-\d{2}) - (.+)$', line)`
(line 29 of `dedupe-conversation-log.py`), returning the three groups
`(conv_id, date, title)`.  The `[a-f0-9]+` group is taken as the maximal hex
run: shortening it by backtracking would put a hex character — never the
required `' '` of `" - "` — right after the group, so the maximal-munch parse
is the regex's unique candidate. -/
def parseChatHeader (line : List Char) : Option (List Char × List Char × List Char) :=
  match dropLit chatLit line with
  | none => none
  | some r0 =>
    let hex := r0.takeWhile isHexLower
    let r1 := r0.dropWhile isHexLower
    if hex.isEmpty then none
    else
      match dropLit sepLit r1 with
      | none => none
      | some r2 =>
        match parseDate r2 with
        | none => none
        | some (date, r3) =>
          match dropLit sepLit r3 with
          | none => none
          | some r4 =>
            match titleOf r4 with
            | none => none
            | some title => some (hex, date, title)

/-- `line.startswith('## ')` (line 49 of the script): the weaker section-start
test used only to end a skip span. -/
def sectionStart (line : List Char) : Bool :=
  match line with
  | '#' :: '#' :: ' ' :: _ => true
  | _ => false

/-- `conversation_key = f"{conv_id}-{date}"` (line 36 of the script). -/
def convKey (convId date : List Char) : List Char :=
  convId ++ '-' :: date

/-- The scanning loop of `dedupe_conversation_log` (lines 27–55 of the
script).  `seen` is `seen_conversations` (kept as a list, to which a key is
added only when absent, so membership and cardinality agree with the Python
set); `skipping` is `skip_until_next`.  Returns
`(filtered_lines, seen_conversations)`.  The local `current_conversation` of
the script is assigned but never read and is omitted. -/
def dedupeLoop (seen : List (List Char)) (skipping : Bool) :
    List (List Char) → List (List Char) × List (List Char)
  | [] => ([], seen)
  | line :: rest =>
    match parseChatHeader line with
    | some (convId, date, _title) =>
      if convKey convId date ∈ seen then
        dedupeLoop seen true rest
      else
        let r := dedupeLoop (convKey convId date :: seen) false rest
        (line :: r.1, r.2)
    | none =>
      if skipping && sectionStart line then
        let r := dedupeLoop seen false rest
        (line :: r.1, r.2)
      else if skipping then
        dedupeLoop seen true rest
      else
        let r := dedupeLoop seen false rest
        (line :: r.1, r.2)

/-- The pure line transform: the filtered lines of one scan started with the
empty seen set and `skip_until_next = False`. -/
def dedupeLines (doc : List (List Char)) : List (List Char) :=
  (dedupeLoop [] false doc).1

/-- `content.split('\n')`: every `'\n'` separates, the empty content yields
one empty line. -/
def splitNl : List Char → List (List Char)
  | [] => [[]]
  | c :: rest =>
    if c = '\n' then [] :: splitNl rest
    else
      match splitNl rest with
      | [] => [[c]]
      | p :: ps => (c :: p) :: ps

/-- `'\n'.join(filtered_lines)` (line 58 of the script). -/
def joinNl : List (List Char) → List Char
  | [] => []
  | [l] => l
  | l :: l2 :: ls => l ++ '\n' :: joinNl (l2 :: ls)

/-- The two file locations touched by the script: `.ai/conversation-log.md`
(`log`) and `.ai/conversation-log.md.backup` (`backup`); `none` means the
file does not exist. -/
structure FS where
  log : Option (List Char)
  backup : Option (List Char)
deriving DecidableEq

/-- The statistics reported at lines 69–77 of the script. -/
structure RunStats where
  originalLines : Nat
  finalLines : Nat
  removedLines : Nat
  conversations : Nat
deriving DecidableEq

/-- `dedupe_conversation_log()` (lines 10–79 of the script) as a function of
the file-system state.  `renameOk` models whether the backup step
`log_file.rename(backup_file)` succeeds; when it raises, the exception
propagates before `write_text`, leaving both locations untouched.  When the
log file is missing the script prints and returns `None` without writing.
On success the backup location holds the original content verbatim (the file
is renamed onto it) and the log location is rewritten with the joined
filtered lines; the reported stats are returned alongside. -/
def dedupe_conversation_log (fs : FS) (renameOk : Bool) : FS × Option RunStats :=
  match fs.log with
  | none => (fs, none)
  | some content =>
    let lines := splitNl content
    let r := dedupeLoop [] false lines
    if renameOk then
      ({ log := some (joinNl r.1), backup := some content },
        some { originalLines := lines.length
               finalLines := r.1.length
               removedLines := lines.length - r.1.length
               conversations := r.2.length })
    else (fs, none)

/-- The identity key a line contributes when it parses as a header. -/
def headerKey? (l : List Char) : Option (List Char) :=
  match parseChatHeader l with
  | some (i, d, _) => some (convKey i d)
  | none => none

/-- The `(id, date)` pair a line contributes when it parses as a header. -/
def headerPair? (l : List Char) : Option (List Char × List Char) :=
  match parseChatHeader l with
  | some (i, d, _) => some (i, d)
  | none => none

/-- All identity keys of the header lines of a document, in order. -/
def headerKeys (ls : List (List Char)) : List (List Char) :=
  ls.filterMap headerKey?

/-- All `(id, date)` pairs of the header lines of a document, in order. -/
def headerPairs (ls : List (List Char)) : List (List Char × List Char) :=
  ls.filterMap headerPair?

end DedupeLog

namespace Efficiency

/-- `\w` of `test-aicf-efficiency.py`.  Python's `re` on `str` is
Unicode-aware: `\w` matches Unicode alphanumerics (per `str.isalnum`) and the
underscore.  The embedding covers `[A-Za-z0-9_]` together with the accented
Latin-1 letters U+00C0–U+00FF (excluding `×` U+00D7 and `÷` U+00F7), on which
it agrees with Python; the further Unicode alphanumerics Python would also
accept are outside every character evaluated below. -/
def isWordChar (c : Char) : Bool :=
  ('A' ≤ c && c ≤ 'Z') || ('a' ≤ c && c ≤ 'z') || ('0' ≤ c && c ≤ '9') || c = '_'
    || (0xC0 ≤ c.toNat && c.toNat ≤ 0xFF && c.toNat ≠ 0xD7 && c.toNat ≠ 0xF7)

/-- `\s` (whitespace: space, tab, newline, carriage return, vertical tab,
form feed).  Python's Unicode-aware `\s` also matches a few further code
points (e.g. `\x1c`–`\x1f`, NBSP); all of them are non-word characters in
both readings, so they separate tokens either way and never affect a token
count below. -/
def isSpaceChar (c : Char) : Bool :=
  c = ' ' || c = '\t' || c = '\n' || c = '\r' || c = '\x0b' || c = '\x0c'

/-- The character class `[\s\W]` of the splitting regex in `count_tokens`. -/
def isSepChar (c : Char) : Bool :=
  isSpaceChar c || !(isWordChar c)

/-- `re.sub(r'\s+', ' ', text)` (line 13 of `test-aicf-efficiency.py`):
each maximal run of whitespace is replaced by a single space.  `prevSpace`
records whether the scan is inside a whitespace run whose single `' '` has
already been emitted. -/
def collapseWsAux (prevSpace : Bool) : List Char → List Char
  | [] => []
  | c :: rest =>
    if isSpaceChar c then
      if prevSpace then collapseWsAux true rest
      else ' ' :: collapseWsAux true rest
    else c :: collapseWsAux false rest

/-- The whitespace-collapsing substitution applied by `count_tokens`. -/
def collapseWs (s : List Char) : List Char :=
  collapseWsAux false s

/-- `re.split(r'[\s\W]+', text)`: the pieces between maximal runs of
separator characters, including the empty pieces that Python's `re.split`
produces at the boundaries.  `inSep` records whether the scan is inside a
separator run whose piece boundary has already been emitted; `acc` holds the
current piece in reverse. -/
def splitSepAux (inSep : Bool) (acc : List Char) : List Char → List (List Char)
  | [] => [acc.reverse]
  | c :: rest =>
    if isSepChar c then
      if inSep then splitSepAux true [] rest
      else acc.reverse :: splitSepAux true [] rest
    else splitSepAux false (c :: acc) rest

/-- `len([word for word in re.split(r'[\s\W]+', text) if word])`: the number
of nonempty pieces of the split, without the preceding whitespace collapse. -/
def rawTokenCount (s : List Char) : Nat :=
  ((splitSepAux false [] s).filter (fun w => !w.isEmpty)).length

/-- `count_tokens(text)` (lines 11–14 of `test-aicf-efficiency.py`). -/
def count_tokens (s : List Char) : Nat :=
  rawTokenCount (collapseWs s)

/-- The number of maximal runs of word characters in a string, counting the
positions where a word character follows a non-word position.  Modelled from
the claim's words, to be compared with `count_tokens`. -/
def runCountAux (prev : Bool) : List Char → Nat
  | [] => 0
  | c :: rest =>
    (if isWordChar c && !prev then 1 else 0) + runCountAux (isWordChar c) rest

/-- The number of maximal runs of word characters in a string. -/
def runCount (s : List Char) : Nat :=
  runCountAux false s

/-- The ASCII word-character class `[A-Za-z0-9_]` named by the claim. -/
def isAsciiWordChar (c : Char) : Bool :=
  ('A' ≤ c && c ≤ 'Z') || ('a' ≤ c && c ≤ 'z') || ('0' ≤ c && c ≤ '9') || c = '_'

/-- The number of maximal runs of `[A-Za-z0-9_]` characters, counting the
positions where such a character follows a non-`[A-Za-z0-9_]` position.
Modelled from the claim's words, to be compared with `count_tokens`. -/
def asciiRunCountAux (prev : Bool) : List Char → Nat
  | [] => 0
  | c :: rest =>
    (if isAsciiWordChar c && !prev then 1 else 0)
      + asciiRunCountAux (isAsciiWordChar c) rest

/-- The number of maximal runs of `[A-Za-z0-9_]` characters in a string. -/
def asciiRunCount (s : List Char) : Nat :=
  asciiRunCountAux false s

/-- Byte length of the UTF-8 encoding of one character
(`len(content.encode('utf-8'))` counts these); valid because `Char` excludes
surrogate code points. -/
def charUtf8Len (c : Char) : Nat :=
  if c.toNat < 128 then 1
  else if c.toNat < 2048 then 2
  else if c.toNat < 65536 then 3
  else 4

/-- `len(content.encode('utf-8'))` (line 27 of `test-aicf-efficiency.py`). -/
def utf8Len (s : List Char) : Nat :=
  (s.map charUtf8Len).sum

/-- The accumulation of `total_tokens` and `total_size` in `main`
(lines 45–62 of `test-aicf-efficiency.py`): each file is `none` when
`analyze_file` reports it missing, otherwise its content; existing files
contribute `count_tokens(content)` tokens and their UTF-8 byte size. -/
def mainTotals : List (Option (List Char)) → Nat × Nat
  | [] => (0, 0)
  | f :: rest =>
    let t := mainTotals rest
    match f with
    | none => t
    | some content => (count_tokens content + t.1, utf8Len content + t.2)

end Efficiency

open DedupeLog Efficiency

/-! ## Helper lemmas about the deduplicator's scan -/

theorem dropLit_eq {lit l r : List Char} (h : dropLit lit l = some r) :
    l = lit ++ r := by
  induction lit generalizing l with
  | nil =>
    simp only [dropLit, Option.some.injEq] at h
    simp [h]
  | cons c cs ih =>
    cases l with
    | nil => simp [dropLit] at h
    | cons d ds =>
      by_cases hc : c = d
      · rw [dropLit, if_pos hc] at h
        subst hc
        simp [ih h]
      · rw [dropLit, if_neg hc] at h
        exact Option.noConfusion h

theorem parse_sectionStart {l : List Char} {x} (h : parseChatHeader l = some x) :
    sectionStart l = true := by
  have hex : ∃ r0, dropLit chatLit l = some r0 := by
    cases hd : dropLit chatLit l with
    | none =>
      rw [parseChatHeader, hd] at h
      exact Option.noConfusion h
    | some r0 => exact ⟨r0, rfl⟩
  obtain ⟨r0, hr⟩ := hex
  have hl := dropLit_eq hr
  subst hl
  rfl

theorem dedupeLoop_header_dup {x i d t} {seen : List (List Char)} {sk : Bool}
    {xs : List (List Char)}
    (h : parseChatHeader x = some (i, d, t)) (hm : convKey i d ∈ seen) :
    dedupeLoop seen sk (x :: xs) = dedupeLoop seen true xs := by
  simp [dedupeLoop, h, hm]

theorem dedupeLoop_header_new {x i d t} {seen : List (List Char)} {sk : Bool}
    {xs : List (List Char)}
    (h : parseChatHeader x = some (i, d, t)) (hm : convKey i d ∉ seen) :
    dedupeLoop seen sk (x :: xs)
      = (x :: (dedupeLoop (convKey i d :: seen) false xs).1,
          (dedupeLoop (convKey i d :: seen) false xs).2) := by
  simp [dedupeLoop, h, hm]

theorem dedupeLoop_body_skip {x} {seen : List (List Char)} {xs : List (List Char)}
    (h : parseChatHeader x = none) (hs : sectionStart x = false) :
    dedupeLoop seen true (x :: xs) = dedupeLoop seen true xs := by
  simp [dedupeLoop, h, hs]

theorem dedupeLoop_body_emit {x} {seen : List (List Char)} {sk : Bool}
    {xs : List (List Char)}
    (h : parseChatHeader x = none) (hc : sk = false ∨ sectionStart x = true) :
    dedupeLoop seen sk (x :: xs)
      = (x :: (dedupeLoop seen false xs).1, (dedupeLoop seen false xs).2) := by
  rcases hc with hc | hc
  · subst hc; simp [dedupeLoop, h]
  · cases sk <;> simp [dedupeLoop, h, hc]

theorem headerKey?_some {x i d t} (h : parseChatHeader x = some (i, d, t)) :
    headerKey? x = some (convKey i d) := by
  simp [headerKey?, h]

theorem headerKey?_none {x} (h : parseChatHeader x = none) :
    headerKey? x = none := by
  simp [headerKey?, h]

theorem skip_run : ∀ (xs seen : List (List Char)),
    dedupeLoop seen true xs
      = dedupeLoop seen false (xs.dropWhile fun l => !sectionStart l) := by
  intro xs
  induction xs with
  | nil => intro seen; rfl
  | cons x rest ih =>
    intro seen
    cases hp : parseChatHeader x with
    | some v =>
      obtain ⟨i, d, t⟩ := v
      have hs := parse_sectionStart hp
      rw [List.dropWhile_cons]
      simp only [hs, Bool.not_true, Bool.false_eq_true, if_false]
      by_cases hm : convKey i d ∈ seen
      · rw [dedupeLoop_header_dup hp hm, dedupeLoop_header_dup hp hm]
      · rw [dedupeLoop_header_new hp hm, dedupeLoop_header_new hp hm]
    | none =>
      cases hs : sectionStart x with
      | true =>
        rw [List.dropWhile_cons]
        simp only [hs, Bool.not_true, Bool.false_eq_true, if_false]
        rw [dedupeLoop_body_emit hp (Or.inr hs), dedupeLoop_body_emit hp (Or.inl rfl)]
      | false =>
        rw [List.dropWhile_cons]
        simp only [hs, Bool.not_false, if_true]
        rw [dedupeLoop_body_skip hp hs]
        exact ih seen

theorem dedupe_keys_inv : ∀ (xs seen : List (List Char)) (sk : Bool),
    (∀ k ∈ headerKeys (dedupeLoop seen sk xs).1, k ∉ seen) ∧
      (headerKeys (dedupeLoop seen sk xs).1).Nodup := by
  intro xs
  induction xs with
  | nil =>
    intro seen sk
    refine ⟨fun k hk => ?_, by simp [dedupeLoop, headerKeys]⟩
    simp [dedupeLoop, headerKeys] at hk
  | cons x rest ih =>
    intro seen sk
    cases hp : parseChatHeader x with
    | some v =>
      obtain ⟨i, d, t⟩ := v
      by_cases hm : convKey i d ∈ seen
      · rw [dedupeLoop_header_dup hp hm]
        exact ih seen true
      · rw [dedupeLoop_header_new hp hm]
        obtain ⟨ih1, ih2⟩ := ih (convKey i d :: seen) false
        have hkeys : headerKeys
            (x :: (dedupeLoop (convKey i d :: seen) false rest).1)
            = convKey i d
                :: headerKeys (dedupeLoop (convKey i d :: seen) false rest).1 := by
          rw [headerKeys, List.filterMap_cons_some (headerKey?_some hp)]
          rfl
        constructor
        · intro k hk
          rw [hkeys] at hk
          rcases List.mem_cons.mp hk with hk | hk
          · subst hk; exact hm
          · intro hkin
            exact ih1 k hk (List.mem_cons_of_mem _ hkin)
        · rw [hkeys]
          refine List.nodup_cons.mpr ⟨fun hin => ?_, ih2⟩
          exact ih1 _ hin (List.mem_cons_self _ _)
    | none =>
      have hkeys : ∀ out : List (List Char),
          headerKeys (x :: out) = headerKeys out := by
        intro out
        rw [headerKeys, List.filterMap_cons_none (headerKey?_none hp)]
        rfl
      cases hsk : sk with
      | true =>
        cases hs : sectionStart x with
        | true =>
          rw [dedupeLoop_body_emit hp (Or.inr hs), hkeys]
          exact ih seen false
        | false =>
          rw [dedupeLoop_body_skip hp hs]
          exact ih seen true
      | false =>
        rw [dedupeLoop_body_emit hp (Or.inl rfl), hkeys]
        exact ih seen false

theorem dedupe_noop : ∀ (ys seen : List (List Char)),
    (headerKeys ys).Nodup → (∀ k ∈ headerKeys ys, k ∉ seen) →
      (dedupeLoop seen false ys).1 = ys := by
  intro ys
  induction ys with
  | nil => intro seen _ _; rfl
  | cons y rest ih =>
    intro seen hnd hdisj
    cases hp : parseChatHeader y with
    | some v =>
      obtain ⟨i, d, t⟩ := v
      have hkeys : headerKeys (y :: rest) = convKey i d :: headerKeys rest := by
        rw [headerKeys, List.filterMap_cons_some (headerKey?_some hp)]
        rfl
      rw [hkeys] at hnd hdisj
      have hm : convKey i d ∉ seen :=
        hdisj _ (List.mem_cons_self _ _)
      rw [dedupeLoop_header_new hp hm]
      have hrest : (dedupeLoop (convKey i d :: seen) false rest).1 = rest := by
        refine ih (convKey i d :: seen) (List.nodup_cons.mp hnd).2 ?_
        intro k hk hkin
        rcases List.mem_cons.mp hkin with he | hkin
        · exact (List.nodup_cons.mp hnd).1 (he ▸ hk)
        · exact hdisj k (List.mem_cons_of_mem _ hk) hkin
      rw [hrest]
    | none =>
      have hkeys : headerKeys (y :: rest) = headerKeys rest := by
        rw [headerKeys, List.filterMap_cons_none (headerKey?_none hp)]
        rfl
      rw [hkeys] at hnd hdisj
      rw [dedupeLoop_body_emit hp (Or.inl rfl), ih seen hnd hdisj]

theorem dedupe_sublist : ∀ (xs seen : List (List Char)) (sk : Bool),
    List.Sublist (dedupeLoop seen sk xs).1 xs := by
  intro xs
  induction xs with
  | nil => intro seen sk; simp [dedupeLoop]
  | cons x rest ih =>
    intro seen sk
    cases hp : parseChatHeader x with
    | some v =>
      obtain ⟨i, d, t⟩ := v
      by_cases hm : convKey i d ∈ seen
      · rw [dedupeLoop_header_dup hp hm]
        exact (ih seen true).cons x
      · rw [dedupeLoop_header_new hp hm]
        exact (ih (convKey i d :: seen) false).cons₂ x
    | none =>
      cases hsk : sk with
      | true =>
        cases hs : sectionStart x with
        | true =>
          rw [dedupeLoop_body_emit hp (Or.inr hs)]
          exact (ih seen false).cons₂ x
        | false =>
          rw [dedupeLoop_body_skip hp hs]
          exact (ih seen true).cons x
      | false =>
        rw [dedupeLoop_body_emit hp (Or.inl rfl)]
        exact (ih seen false).cons₂ x

theorem headerKeys_eq_map : ∀ ls : List (List Char),
    headerKeys ls = (headerPairs ls).map fun p => convKey p.1 p.2 := by
  intro ls
  induction ls with
  | nil => rfl
  | cons x rest ih =>
    cases hp : parseChatHeader x with
    | some v =>
      obtain ⟨i, d, t⟩ := v
      have h1 : headerPair? x = some (i, d) := by simp [headerPair?, hp]
      rw [headerKeys, List.filterMap_cons_some (headerKey?_some hp),
        headerPairs, List.filterMap_cons_some h1]
      simpa [headerKeys, headerPairs] using ih
    | none =>
      have h1 : headerPair? x = none := by simp [headerPair?, hp]
      rw [headerKeys, List.filterMap_cons_none (headerKey?_none hp),
        headerPairs, List.filterMap_cons_none h1]
      exact ih

/-! ## Helper lemmas about the analyzer's token counting -/

theorem space_not_word {c : Char} (h : isSpaceChar c = true) :
    isWordChar c = false := by
  simp only [isSpaceChar, Bool.or_eq_true, decide_eq_true_eq] at h
  rcases h with ((((h | h) | h) | h) | h) | h <;> subst h <;> decide

theorem sep_eq_not_word (c : Char) : isSepChar c = !isWordChar c := by
  rw [isSepChar]
  cases hw : isWordChar c with
  | true =>
    have hs : isSpaceChar c = false := by
      cases hsp : isSpaceChar c with
      | true => exact absurd hw (by simp [space_not_word hsp])
      | false => rfl
    simp [hs]
  | false => simp


theorem splitSep_count : ∀ (s : List Char) (inSep : Bool) (acc : List Char),
    (inSep = true → acc = []) →
      ((splitSepAux inSep acc s).filter (fun w => !w.isEmpty)).length
        = (if acc.isEmpty then 0 else 1) + runCountAux (!acc.isEmpty) s := by
  intro s
  induction s with
  | nil =>
    intro inSep acc _
    cases acc with
    | nil => rfl
    | cons a as =>
      have hne : (as.reverse ++ [a]).isEmpty = false := by simp
      simp [splitSepAux, runCountAux, List.filter, hne]
  | cons c rest ih =>
    intro inSep acc hinv
    cases hw : isWordChar c with
    | true =>
      have hsep : isSepChar c = false := by rw [sep_eq_not_word, hw]; rfl
      rw [splitSepAux, if_neg (by simp [hsep])]
      rw [ih false (c :: acc) (by intro h; exact absurd h (by simp))]
      rw [runCountAux]
      simp only [hw]
      cases acc with
      | nil => simp
      | cons a as => simp
    | false =>
      have hsep : isSepChar c = true := by rw [sep_eq_not_word, hw]; rfl
      cases hin : inSep with
      | true =>
        have hacc := hinv hin
        subst hacc
        rw [splitSepAux, if_pos hsep, if_pos rfl]
        rw [ih true [] (fun _ => rfl)]
        rw [runCountAux]
        simp [hw]
      | false =>
        rw [splitSepAux, if_pos hsep, if_neg (by simp)]
        cases acc with
        | nil =>
          rw [List.filter_cons, if_neg (by simp)]
          rw [ih true [] (fun _ => rfl)]
          simp [runCountAux, hw]
        | cons a as =>
          rw [List.filter_cons, if_pos (by simp), List.length_cons]
          rw [ih true [] (fun _ => rfl)]
          simp [runCountAux, hw]
          omega

theorem collapse_runCount : ∀ (s : List Char) (prev : Bool),
    runCountAux prev (collapseWsAux false s) = runCountAux prev s ∧
      runCountAux false (collapseWsAux true s) = runCountAux false s := by
  intro s
  induction s with
  | nil => intro prev; exact ⟨rfl, rfl⟩
  | cons c rest ih =>
    intro prev
    cases hsp : isSpaceChar c with
    | true =>
      have hw := space_not_word hsp
      have hspw : isWordChar ' ' = false := by decide
      constructor
      · rw [collapseWsAux, if_pos hsp, if_neg (by simp)]
        rw [runCountAux, runCountAux]
        simp only [hw, hspw, Bool.false_and, Bool.false_eq_true, if_false, Nat.zero_add]
        exact (ih prev).2
      · rw [collapseWsAux, if_pos hsp, if_pos rfl]
        rw [runCountAux]
        simp only [hw, Bool.false_and, Bool.false_eq_true, if_false, Nat.zero_add]
        exact (ih prev).2
    | false =>
      constructor
      · rw [collapseWsAux, if_neg (by simp [hsp])]
        rw [runCountAux, runCountAux]
        exact congrArg _ ((ih (isWordChar c)).1)
      · rw [collapseWsAux, if_neg (by simp [hsp])]
        rw [runCountAux, runCountAux]
        exact congrArg _ ((ih (isWordChar c)).1)

theorem word_eq_ascii {c : Char} (h : c.toNat < 128) :
    isWordChar c = isAsciiWordChar c := by
  have h192 : decide (0xC0 ≤ c.toNat) = false :=
    decide_eq_false (by omega)
  rw [isWordChar, isAsciiWordChar, h192]
  simp

theorem runCount_eq_ascii : ∀ (s : List Char) (prev : Bool),
    (∀ c ∈ s, c.toNat < 128) →
      runCountAux prev s = asciiRunCountAux prev s := by
  intro s
  induction s with
  | nil => intro prev _; rfl
  | cons c rest ih =>
    intro prev hs
    have hc := word_eq_ascii (hs c (List.mem_cons_self c rest))
    rw [runCountAux, asciiRunCountAux, hc,
      ih (isAsciiWordChar c) (fun x hx => hs x (List.mem_cons_of_mem c hx))]

theorem dedupe_spans_aux : ∀ (n : Nat) (xs : List (List Char)), xs.length ≤ n →
    ∀ seen : List (List Char),
    ∃ cs : List (Bool × List (List Char)),
      xs = (cs.map Prod.snd).flatten ∧
      (dedupeLoop seen false xs).1 = ((cs.filter Prod.fst).map Prod.snd).flatten ∧
      ∀ c ∈ cs, c.1 = false →
        ∃ h body i d t, c.2 = h :: body ∧ parseChatHeader h = some (i, d, t) ∧
          (convKey i d ∈ seen
            ∨ convKey i d ∈ headerKeys (dedupeLoop seen false xs).1) ∧
          ∀ l ∈ body, sectionStart l = false := by
  intro n
  induction n with
  | zero =>
    intro xs hlen seen
    have hx : xs = [] := List.length_eq_zero.mp (Nat.le_zero.mp hlen)
    subst hx
    exact ⟨[], rfl, rfl, by simp⟩
  | succ n ih =>
    intro xs hlen seen
    cases xs with
    | nil => exact ⟨[], rfl, rfl, by simp⟩
    | cons x rest =>
      have hrest : rest.length ≤ n := Nat.le_of_succ_le_succ hlen
      cases hp : parseChatHeader x with
      | some v =>
        obtain ⟨i, d, t⟩ := v
        by_cases hm : convKey i d ∈ seen
        · -- duplicate header: one dropped span up to the next section start
          have hloop : dedupeLoop seen false (x :: rest)
              = dedupeLoop seen false
                  (rest.dropWhile fun l => !sectionStart l) := by
            rw [dedupeLoop_header_dup hp hm]
            exact skip_run rest seen
          have hr' : (rest.dropWhile fun l => !sectionStart l).length ≤ n :=
            le_trans (List.dropWhile_sublist _).length_le hrest
          obtain ⟨cs', h1, h2, h3⟩ :=
            ih (rest.dropWhile fun l => !sectionStart l) hr' seen
          refine ⟨(false, x :: rest.takeWhile fun l => !sectionStart l) :: cs',
            ?_, ?_, ?_⟩
          · rw [List.map_cons, List.flatten_cons, ← h1]
            rw [List.cons_append]
            rw [List.takeWhile_append_dropWhile]
          · rw [hloop, h2]
            rfl
          · intro c hc hcf
            rcases List.mem_cons.mp hc with hc | hc
            · subst hc
              refine ⟨x, rest.takeWhile fun l => !sectionStart l, i, d, t,
                rfl, hp, Or.inl hm, ?_⟩
              intro l hl
              have := List.mem_takeWhile_imp hl
              simpa using this
            · obtain ⟨h', body', i', d', t', hspan, hph, hkey, hbody⟩ :=
                h3 c hc hcf
              refine ⟨h', body', i', d', t', hspan, hph, ?_, hbody⟩
              rw [hloop]
              exact hkey
        · -- fresh header: kept as a singleton chunk
          obtain ⟨cs', h1, h2, h3⟩ := ih rest hrest (convKey i d :: seen)
          have hloop := @dedupeLoop_header_new x i d t seen false rest hp hm
          refine ⟨(true, [x]) :: cs', ?_, ?_, ?_⟩
          · rw [List.map_cons, List.flatten_cons, ← h1]
            rfl
          · rw [hloop]
            simpa using h2
          · intro c hc hcf
            rcases List.mem_cons.mp hc with hc | hc
            · subst hc
              exact absurd hcf (by simp)
            · obtain ⟨h', body', i', d', t', hspan, hph, hkey, hbody⟩ :=
                h3 c hc hcf
              refine ⟨h', body', i', d', t', hspan, hph, ?_, hbody⟩
              have hcons : headerKeys (dedupeLoop seen false (x :: rest)).1
                  = convKey i d
                      :: headerKeys (dedupeLoop (convKey i d :: seen) false rest).1 := by
                rw [hloop, headerKeys,
                  List.filterMap_cons_some (headerKey?_some hp)]
                rfl
              rcases hkey with hk | hk
              · rcases List.mem_cons.mp hk with hk | hk
                · rw [hcons, hk]
                  exact Or.inr (List.mem_cons_self _ _)
                · exact Or.inl hk
              · rw [hcons]
                exact Or.inr (List.mem_cons_of_mem _ hk)
      | none =>
        -- non-header line with skipping off: kept as a singleton chunk
        obtain ⟨cs', h1, h2, h3⟩ := ih rest hrest seen
        have hloop := @dedupeLoop_body_emit x seen false rest hp (Or.inl rfl)
        refine ⟨(true, [x]) :: cs', ?_, ?_, ?_⟩
        · rw [List.map_cons, List.flatten_cons, ← h1]
          rfl
        · rw [hloop]
          simpa using h2
        · intro c hc hcf
          rcases List.mem_cons.mp hc with hc | hc
          · subst hc
            exact absurd hcf (by simp)
          · obtain ⟨h', body', i', d', t', hspan, hph, hkey, hbody⟩ :=
              h3 c hc hcf
            refine ⟨h', body', i', d', t', hspan, hph, ?_, hbody⟩
            have hsame : headerKeys (dedupeLoop seen false (x :: rest)).1
                = headerKeys (dedupeLoop seen false rest).1 := by
              rw [hloop, headerKeys,
                List.filterMap_cons_none (headerKey?_none hp)]
              rfl
            rw [hsame]
            exact hkey

/-! ## Claim theorems -/

/-- C1, as stated, is false: in the document below the second
`## Chat aa - 2024-01-01 - T` header is a duplicate and none of the three
lines after it parses as an entry header, so the claim says the whole
remainder is suppressed together with the header; the code instead stops
skipping at `"## note"` (a generic section start) and keeps it and
`"body three"`, removing the duplicate entry only partially. -/
theorem C1_counterexample :
    dedupeLines
        (["## Chat aa - 2024-01-01 - T", "body one", "## Chat aa - 2024-01-01 - T",
            "body two", "## note", "body three"].map String.toList)
        = ["## Chat aa - 2024-01-01 - T", "body one", "## note",
            "body three"].map String.toList ∧
      parseChatHeader "body two".toList = none ∧
      parseChatHeader "## note".toList = none ∧
      parseChatHeader "body three".toList = none := by
  exact ⟨by decide, by decide, by decide, by decide⟩

/-- C1 (amended): on a header whose `(id, date)` key was already seen, the
scanner suppresses that header together with all following lines up to the
next line starting with the section marker `"## "` — whether or not that
line is itself an entry header — as one contiguous span, and resumes the
normal scan (with `skipping` cleared) at that boundary.  An entry whose body
contains a `"## "`-starting line is therefore removed only up to that
line. -/
theorem C1_amended_skip_span (seen : List (List Char)) (sk : Bool)
    (line : List Char) (xs : List (List Char)) (i d t : List Char)
    (hp : parseChatHeader line = some (i, d, t)) (hm : convKey i d ∈ seen) :
    dedupeLoop seen sk (line :: xs)
      = dedupeLoop seen false (xs.dropWhile fun l => !sectionStart l) := by
  rw [dedupeLoop_header_dup hp hm]
  exact skip_run xs seen

/-- C1 witness: the amended span theorem applied at a concrete duplicate
header followed by a body line, a generic section line and a trailing
line. -/
theorem C1_witness :
    parseChatHeader "## Chat aa - 2024-01-01 - T".toList
        = some ("aa".toList, "2024-01-01".toList, "T".toList) ∧
      convKey "aa".toList "2024-01-01".toList
        ∈ [convKey "aa".toList "2024-01-01".toList] ∧
      (["body two", "## note", "body three"].map String.toList).dropWhile
          (fun l => !sectionStart l) = ["## note", "body three"].map String.toList ∧
      dedupeLoop [convKey "aa".toList "2024-01-01".toList] false
          ("## Chat aa - 2024-01-01 - T".toList
            :: (["body two", "## note", "body three"].map String.toList))
        = dedupeLoop [convKey "aa".toList "2024-01-01".toList] false
            ((["body two", "## note", "body three"].map String.toList).dropWhile
              fun l => !sectionStart l) :=
  ⟨by decide, by decide, by decide,
    C1_amended_skip_span [convKey "aa".toList "2024-01-01".toList] false
      "## Chat aa - 2024-01-01 - T".toList
      (["body two", "## note", "body three"].map String.toList)
      "aa".toList "2024-01-01".toList "T".toList (by decide) (by decide)⟩

/-- C2: the deduplicate transform is idempotent — applying it to its own
output returns that output unchanged. -/
theorem C2_dedupe_idempotent : ∀ doc : List (List Char),
    dedupeLines (dedupeLines doc) = dedupeLines doc := by
  intro doc
  show (dedupeLoop [] false (dedupeLines doc)).1 = dedupeLines doc
  exact dedupe_noop (dedupeLines doc) [] (dedupe_keys_inv doc [] false).2
    (fun k _ hk => List.not_mem_nil k hk)

/-- C3: a line that is not an entry header but starts with the generic
section marker `"## "`, reached while the scanner is skipping a duplicate
span, stops the skipping and is itself emitted in the output. -/
theorem C3_weak_section_ends_skip (seen xs : List (List Char)) (l : List Char)
    (h1 : parseChatHeader l = none) (h2 : sectionStart l = true) :
    dedupeLoop seen true (l :: xs)
      = (l :: (dedupeLoop seen false xs).1, (dedupeLoop seen false xs).2) :=
  dedupeLoop_body_emit h1 (Or.inr h2)

/-- C3 witness: the skip-termination theorem applied to the concrete
non-header section line `"## note"`. -/
theorem C3_witness :
    parseChatHeader "## note".toList = none ∧
      sectionStart "## note".toList = true ∧
      dedupeLoop [] true ["## note".toList] = (["## note".toList], []) :=
  ⟨by decide, by decide,
    C3_weak_section_ends_skip [] [] _ (by decide) (by decide)⟩

/-- C4: no two header lines of a filtered output share the same
`(id, date)` pair. -/
theorem C4_identity_unique : ∀ doc : List (List Char),
    (headerPairs (dedupeLines doc)).Nodup := by
  intro doc
  have h := (dedupe_keys_inv doc [] false).2
  rw [dedupeLines] at *
  rw [headerKeys_eq_map] at h
  exact h.of_map _

/-- C5: the filtered output is a subsequence of the input document — every
output line occurs in the input, unmodified and in the same relative order —
and the only missing lines lie inside contiguous duplicate-entry skip spans:
the input splits into consecutive chunks whose kept chunks concatenate, in
order, to exactly the output, and every dropped chunk is a contiguous span
consisting of a header whose `(id, date)` key belongs to an entry kept in
the output, followed only by non-section-start body lines. -/
theorem C5_subsequence : ∀ doc : List (List Char),
    List.Sublist (dedupeLines doc) doc ∧
      ∃ cs : List (Bool × List (List Char)),
        doc = (cs.map Prod.snd).flatten ∧
        dedupeLines doc = ((cs.filter Prod.fst).map Prod.snd).flatten ∧
        ∀ c ∈ cs, c.1 = false →
          ∃ h body i d t, c.2 = h :: body ∧ parseChatHeader h = some (i, d, t) ∧
            convKey i d ∈ headerKeys (dedupeLines doc) ∧
            ∀ l ∈ body, sectionStart l = false := by
  intro doc
  refine ⟨dedupe_sublist doc [] false, ?_⟩
  obtain ⟨cs, h1, h2, h3⟩ := dedupe_spans_aux doc.length doc (le_refl _) []
  refine ⟨cs, h1, h2, ?_⟩
  intro c hc hcf
  obtain ⟨h, body, i, d, t, hspan, hph, hkey, hbody⟩ := h3 c hc hcf
  refine ⟨h, body, i, d, t, hspan, hph, ?_, hbody⟩
  rcases hkey with hk | hk
  · exact absurd hk (List.not_mem_nil _)
  · exact hk

/-- C7: a line that fails to parse as an entry header is processed as
ordinary body content — it never changes the seen set (the scan of the rest
continues with the same `seen`), and it is emitted whenever the scanner is
not currently skipping (in particular always when `skipping = false`); no
error is possible, the scan being a total function. -/
theorem C7_malformed_is_body (seen : List (List Char)) (sk : Bool)
    (l : List Char) (xs : List (List Char)) (h : parseChatHeader l = none) :
    dedupeLoop seen sk (l :: xs)
      = if sk && !sectionStart l then dedupeLoop seen true xs
        else (l :: (dedupeLoop seen false xs).1, (dedupeLoop seen false xs).2) := by
  cases hsk : sk with
  | false =>
    rw [dedupeLoop_body_emit h (Or.inl rfl)]
    simp
  | true =>
    cases hs : sectionStart l with
    | true =>
      rw [dedupeLoop_body_emit h (Or.inr hs)]
      simp [hs]
    | false =>
      rw [dedupeLoop_body_skip h hs]
      simp [hs]

/-- C7 witness: a malformed line while not skipping is passed through. -/
theorem C7_witness :
    parseChatHeader "just text".toList = none ∧
      dedupeLoop [] false ["just text".toList] = (["just text".toList], []) :=
  ⟨by decide, by
    have h := C7_malformed_is_body [] false ("just text".toList) [] (by decide)
    simpa using h⟩

/-- C6, as stated, is false: on an existing empty log file the script splits
the empty content into one empty line, so the reported original and final
line counts are both 1, not 0 (the removed-line and conversation counts are
0 and the backup/overwrite do occur). -/
theorem C6_counterexample :
    (dedupe_conversation_log ⟨some [], none⟩ true).2
        = some ⟨1, 1, 0, 0⟩ ∧
      (dedupe_conversation_log ⟨some [], none⟩ true).2
        ≠ some ⟨0, 0, 0, 0⟩ :=
  ⟨by decide, by decide⟩

/-- C6 (amended): for an existing zero-length log file, the output written
back is empty, the removed-line and distinct-conversation counts are zero,
the original and final line counts are both 1 (splitting the empty content
yields a single empty line), and the backup and overwrite steps both still
occur, each with zero-length content. -/
theorem C6_empty_file :
    dedupe_conversation_log ⟨some [], none⟩ true
      = (⟨some [], some []⟩, some ⟨1, 1, 0, 0⟩) := by
  decide

/-- C8: for every run that reaches the persistence step (the log file
exists), after a successful backup the backup location holds the original
content verbatim and the log location holds the filtered result; if the
backup step fails, the whole state is left untouched and no overwrite is
attempted. -/
theorem C8_backup_then_overwrite (fs : FS) (content : List Char)
    (h : fs.log = some content) :
    (dedupe_conversation_log fs true).1.backup = some content ∧
      (dedupe_conversation_log fs true).1.log
        = some (joinNl (dedupeLines (splitNl content))) ∧
      dedupe_conversation_log fs false = (fs, none) := by
  refine ⟨?_, ?_, ?_⟩ <;> simp [dedupe_conversation_log, h, dedupeLines]

/-- C8 witness: the persistence theorem applied to a one-line log file. -/
theorem C8_witness :
    (FS.mk (some "a".toList) none).log = some "a".toList ∧
      ((dedupe_conversation_log ⟨some "a".toList, none⟩ true).1.backup
          = some "a".toList ∧
        (dedupe_conversation_log ⟨some "a".toList, none⟩ true).1.log
          = some (joinNl (dedupeLines (splitNl "a".toList))) ∧
        dedupe_conversation_log ⟨some "a".toList, none⟩ false
          = (⟨some "a".toList, none⟩, none)) :=
  ⟨rfl, C8_backup_then_overwrite ⟨some "a".toList, none⟩ "a".toList rfl⟩

/-- C9, as stated, is false: a single existing file whose content `"!!!"`
has no word characters gives `total_size = 3 > 0` (the overall-statistics
branch is taken) but `total_tokens = 0`, so the divisor
`estimated_json_size = total_tokens * 15` is zero and the
compression-vs-JSON percentage divides by zero. -/
theorem C9_counterexample :
    0 < (mainTotals [some ['!', '!', '!']]).2 ∧
      (mainTotals [some ['!', '!', '!']]).1 * 15 = 0 := by
  decide

/-- C9 (amended): in the overall-statistics branch (`total_size > 0`) the
divisions whose divisor is `total_size` are safe, and the divisor
`estimated_json_size = total_tokens * 15` is nonzero exactly when
`total_tokens` is nonzero — which does not follow from `total_size > 0`. -/
theorem C9_amended (files : List (Option (List Char)))
    (h : 0 < (mainTotals files).2) :
    (mainTotals files).2 ≠ 0 ∧
      ((mainTotals files).1 * 15 ≠ 0 ↔ (mainTotals files).1 ≠ 0) := by
  refine ⟨Nat.pos_iff_ne_zero.mp h, ?_⟩
  constructor
  · intro hne h0
    exact hne (by rw [h0])
  · intro hne hmul
    rcases Nat.mul_eq_zero.mp hmul with h0 | h15
    · exact hne h0
    · exact absurd h15 (by decide)

/-- C9 witness: the amended divisor theorem applied to a file collection
with one two-letter file. -/
theorem C9_witness :
    0 < (mainTotals [some ['a', 'b']]).2 ∧
      ((mainTotals [some ['a', 'b']]).2 ≠ 0 ∧
        ((mainTotals [some ['a', 'b']]).1 * 15 ≠ 0
          ↔ (mainTotals [some ['a', 'b']]).1 ≠ 0)) :=
  ⟨by decide, C9_amended [some ['a', 'b']] (by decide)⟩

/-- C10, as stated, is false: Python's `re` on `str` is Unicode-aware, so
`\w` in `count_tokens` matches more than `[A-Za-z0-9_]` — the accented
letters `'é'` and `'ï'` are word characters to the program.  `count_tokens`
on `"é"` is 1 though it has no maximal `[A-Za-z0-9_]` run, and on `"naïve"`
it is 1 though the maximal `[A-Za-z0-9_]` runs are `"na"` and `"ve"`. -/
theorem C10_counterexample :
    count_tokens ['é'] = 1 ∧ asciiRunCount ['é'] = 0 ∧
      count_tokens ['é'] ≠ asciiRunCount ['é'] ∧
      count_tokens ['n', 'a', 'ï', 'v', 'e'] = 1 ∧
      asciiRunCount ['n', 'a', 'ï', 'v', 'e'] = 2 := by
  refine ⟨by decide, by decide, by decide, by decide, by decide⟩

/-- C10 (amended): for every input string of ASCII characters,
`count_tokens` returns exactly the number of maximal runs of `[A-Za-z0-9_]`
word characters (on ASCII, Python's Unicode-aware `\w` coincides with that
class); it returns 0 on the empty string; and the initial
whitespace-collapsing substitution never changes the result (the count
equals the raw split count without the substitution). -/
theorem C10_count_tokens :
    (∀ s : List Char, (∀ c ∈ s, c.toNat < 128) →
        count_tokens s = asciiRunCount s) ∧
      count_tokens [] = 0 ∧
      (∀ s : List Char, count_tokens s = rawTokenCount s) := by
  have key : ∀ s : List Char, rawTokenCount s = runCount s := by
    intro s
    rw [rawTokenCount, splitSep_count s false [] (fun _ => rfl)]
    simp [runCount]
  have main : ∀ s : List Char, count_tokens s = runCount s := by
    intro s
    rw [count_tokens, key (collapseWs s), runCount, runCount, collapseWs]
    exact (collapse_runCount s false).1
  refine ⟨fun s hs => ?_, by decide, fun s => (main s).trans (key s).symm⟩
  rw [main s, runCount, asciiRunCount]
  exact runCount_eq_ascii s false hs

/-- C10 witness: the amended ASCII-run theorem applied to the concrete
string `"ab cd"`. -/
theorem C10_witness :
    (∀ c ∈ "ab cd".toList, c.toNat < 128) ∧
      count_tokens "ab cd".toList = asciiRunCount "ab cd".toList :=
  ⟨by decide, C10_count_tokens.1 "ab cd".toList (by decide)⟩
